import Mathlib

/-!
Verification development for the impurity collisional-radiative model
(`impurity.py`, `solver.py`).

The Python code is shallowly embedded over exact rationals:

* Atomic states, catalog lines and the transition-loading pass
  (`Impurity.load_transitions`, `Impurity.get_state`) are embedded as plain
  data and total functions.
* The per-cell rate-matrix accumulation of `Impurity.build_rate_matrices`
  is embedded as a fold of signed loss/gain updates over the transition
  lists.  The numeric rate coefficients (`rates.ion_rate`,
  `rates.tbrec_rate`, `rates.ex_rate`, `rates.deex_rate`, evaluated from
  the external `rates` module, which is not part of this repository's
  sources) enter as opaque per-transition rational parameters; the
  radiative-recombination coefficient keeps its explicit clamp
  `max(interp(Te), 0.0)` from the source.
* The dense linear-algebra backend (`np.linalg.inv` / PETSc KSP) is an
  external collaborator; it is embedded as a fallible solving oracle
  together with the contract that any returned vector solves the system.
  `Impurity.solve`, `Impurity.evolve` and the time-stepping loop of
  `solver.evolve` (including its MPI reduce-then-broadcast combination of
  per-rank residuals and failure flags) are embedded on top of it.
-/

namespace ImpZeff

/-- Atomic state record (`transition.State(iz, statename, i, statw, energy)`
as constructed in `Impurity.load_states`). -/
structure State where
  iz : ℤ
  statename : String
  loc : ℕ
  statw : ℤ
  energy : ℚ
deriving DecidableEq, Repr

/-- One data line of the transitions file as split in
`Impurity.load_transitions`: type tag, from-state key, to-state key and the
auxiliary `dtype` column. -/
structure CatalogLine where
  trans_type : String
  from_iz : ℤ
  from_statename : String
  to_iz : ℤ
  to_statename : String
  dtype : String
deriving DecidableEq, Repr

/-- The feature toggles of the `input` module that gate transition kinds. -/
structure Config where
  COLL_ION_REC : Bool
  RAD_REC : Bool
  COLL_EX_DEEX : Bool
  SPONT_EM : Bool
deriving DecidableEq, Repr

/-- A retained transition (`transition.Transition`): its type tag and the two
resolved states.  The cross-section / rate payload is irrelevant to the
loading logic and omitted. -/
structure Transition where
  ttype : String
  from_state : State
  to_state : State
deriving DecidableEq, Repr

/-- The three transition lists built by `Impurity.load_transitions`
(`self.iz_transitions`, `self.radrec_transitions`, `self.ex_transitions`). -/
structure LoadedTransitions where
  iz : List Transition
  radrec : List Transition
  ex : List Transition
deriving DecidableEq, Repr

/-- `Impurity.get_state`: linear scan over `self.states` returning the first
state matching both ionization stage and name, `None` when absent. -/
def get_state (states : List State) (iz : ℤ) (statename : String) : Option State :=
  states.find? (fun s => s.iz == iz && s.statename == statename)

/-- Processing of a single catalog line inside the loop of
`Impurity.load_transitions`: both state lookups must succeed
(`if from_state is not None and to_state is not None`), and each kind is
appended only under its feature flag.  A line whose lookups fail leaves the
accumulated lists untouched. -/
def processLine (cfg : Config) (states : List State) (acc : LoadedTransitions)
    (l : CatalogLine) : LoadedTransitions :=
  match get_state states l.from_iz l.from_statename,
        get_state states l.to_iz l.to_statename with
  | some fs, some ts =>
    { iz := acc.iz ++
        (if l.trans_type = "ionization" ∧ cfg.COLL_ION_REC = true then
          [⟨"ionization", fs, ts⟩] else []),
      radrec := acc.radrec ++
        (if l.trans_type = "radrec" ∧ cfg.RAD_REC = true then
          [⟨"radrec", fs, ts⟩] else []),
      ex := acc.ex ++
        (if l.trans_type = "excitation" ∧ cfg.COLL_EX_DEEX = true then
          [⟨"excitation", fs, ts⟩] else []) }
  | _, _ => acc

/-- `Impurity.load_transitions` over the parsed lines of the transitions
file (spontaneous-emission loading is a separate routine). -/
def load_transitions (cfg : Config) (states : List State)
    (lines : List CatalogLine) : LoadedTransitions :=
  lines.foldl (processLine cfg states) ⟨[], [], []⟩

end ImpZeff

namespace ImpZeff

/-- Sum of one column of a square matrix. -/
def colSum {n : ℕ} (M : Matrix (Fin n) (Fin n) ℚ) (c : Fin n) : ℚ :=
  ∑ r, M r c

/-- The elementary accumulation step of `Impurity.build_rate_matrices`: a
loss `rate_mat[a, a] += -K` paired with a gain `rate_mat[b, a] += K` in the
same column `a`. -/
def addPair {n : ℕ} (a b : Fin n) (K : ℚ) (M : Matrix (Fin n) (Fin n) ℚ) :
    Matrix (Fin n) (Fin n) ℚ :=
  Matrix.of fun r c =>
    M r c + (if r = a ∧ c = a then -K else 0) + (if r = b ∧ c = a then K else 0)

/-- An ionization transition as consumed by `build_rate_matrices` at one
spatial cell: locations of the two states and the two evaluated rate
coefficients.  `K_ion` stands for
`collrate_const * rates.ion_rate(f0[i], vgrid, dvc, sigma)` and `K_rec` for
`ne[i] * collrate_const * tbrec_norm * rates.tbrec_rate(...)`; both are
opaque distribution integrals computed by the external `rates` module. -/
structure IzTrans (n : ℕ) where
  from_loc : Fin n
  to_loc : Fin n
  K_ion : ℚ
  K_rec : ℚ

/-- A radiative-recombination transition: state locations and the
temperature interpolant `radrec_interp`. -/
structure RadrecTrans (n : ℕ) where
  from_loc : Fin n
  to_loc : Fin n
  radrec_interp : ℚ → ℚ

/-- An excitation transition with its evaluated excitation and
de-excitation coefficients (opaque distribution integrals). -/
structure ExTrans (n : ℕ) where
  from_loc : Fin n
  to_loc : Fin n
  K_ex : ℚ
  K_deex : ℚ

/-- A spontaneous-emission transition with its fixed rate
`em_trans.spontem_rate`. -/
structure EmTrans (n : ℕ) where
  from_loc : Fin n
  to_loc : Fin n
  rate : ℚ

/-- The clamped radiative-recombination coefficient
`alpha_radrec = max(radrec_trans.radrec_interp(Te[i]), 0.0)` used both in
`build_rate_matrices` and in `get_radrec_E_rates`. -/
def radrecAlpha (interp : ℚ → ℚ) (Te : ℚ) : ℚ :=
  max (interp Te) 0

/-- Ionization block of the cell loop: loss/gain at column `from_loc` for
ionization, then loss/gain at column `to_loc` for three-body
recombination. -/
def applyIz {n : ℕ} (M : Matrix (Fin n) (Fin n) ℚ) (t : IzTrans n) :
    Matrix (Fin n) (Fin n) ℚ :=
  addPair t.to_loc t.from_loc t.K_rec (addPair t.from_loc t.to_loc t.K_ion M)

/-- Radiative-recombination block: loss/gain pair with coefficient
`ne[i] * alpha_radrec`, the clamped interpolant value. -/
def applyRadrec {n : ℕ} (ne Te : ℚ) (M : Matrix (Fin n) (Fin n) ℚ)
    (t : RadrecTrans n) : Matrix (Fin n) (Fin n) ℚ :=
  addPair t.from_loc t.to_loc (ne * radrecAlpha t.radrec_interp Te) M

/-- Excitation block: loss/gain for excitation then loss/gain for the
derived de-excitation. -/
def applyEx {n : ℕ} (M : Matrix (Fin n) (Fin n) ℚ) (t : ExTrans n) :
    Matrix (Fin n) (Fin n) ℚ :=
  addPair t.to_loc t.from_loc t.K_deex (addPair t.from_loc t.to_loc t.K_ex M)

/-- Spontaneous-emission block: a single loss/gain pair at the fixed rate. -/
def applyEm {n : ℕ} (M : Matrix (Fin n) (Fin n) ℚ) (t : EmTrans n) :
    Matrix (Fin n) (Fin n) ℚ :=
  addPair t.from_loc t.to_loc t.rate M

/-- The rate matrix accumulated for one spatial cell by
`Impurity.build_rate_matrices`: starting from zeros, each enabled transition
kind adds its loss/gain pairs.  The same accumulation is run once with
kinetic-distribution coefficients (`rate_mat`) and once with Maxwellian
coefficients (`rate_mat_max`); both are instances of this definition with
different opaque coefficients. -/
def buildCellMat {n : ℕ} (cfg : Config) (ne Te : ℚ)
    (izs : List (IzTrans n)) (radrecs : List (RadrecTrans n))
    (exs : List (ExTrans n)) (ems : List (EmTrans n)) :
    Matrix (Fin n) (Fin n) ℚ :=
  let M0 : Matrix (Fin n) (Fin n) ℚ := 0
  let M1 := if cfg.COLL_ION_REC then izs.foldl applyIz M0 else M0
  let M2 := if cfg.RAD_REC then radrecs.foldl (applyRadrec ne Te) M1 else M1
  let M3 := if cfg.COLL_EX_DEEX then exs.foldl applyEx M2 else M2
  if cfg.SPONT_EM then ems.foldl applyEm M3 else M3

/-- The per-cell family of rate matrices produced by
`Impurity.build_rate_matrices` (each spatial cell is accumulated
independently from its local electron data). -/
def build_rate_matrices {num_x n : ℕ} (cfg : Config) (ne Te : Fin num_x → ℚ)
    (izs : Fin num_x → List (IzTrans n))
    (radrecs : Fin num_x → List (RadrecTrans n))
    (exs : Fin num_x → List (ExTrans n))
    (ems : Fin num_x → List (EmTrans n)) :
    Fin num_x → Matrix (Fin n) (Fin n) ℚ :=
  fun i => buildCellMat cfg (ne i) (Te i) (izs i) (radrecs i) (exs i) (ems i)

/-- The fallible linear-solve collaborator: `np.linalg.inv(loc_mat)` followed
by `.dot(rhs)` in `Impurity.solve` (an exception on a singular matrix is
`none`).  The backend is external (numpy), so it is embedded as an oracle. -/
def LinSolve (S : ℕ) : Type :=
  Matrix (Fin (S + 1)) (Fin (S + 1)) ℚ → (Fin (S + 1) → ℚ) →
    Option (Fin (S + 1) → ℚ)

/-- Contract of the linear-solve collaborator: a returned vector solves the
system (numpy's inverse is exact in this rational model). -/
def LinSolveOK {S : ℕ} (inv : LinSolve S) : Prop :=
  ∀ M b x, inv M b = some x → M.mulVec x = b

/-- A concrete solving oracle used to instantiate the contract on small
systems: it returns a candidate vector after checking that it solves the
system, and fails otherwise. -/
def checkedLinSolve {S : ℕ} (cand : Fin (S + 1) → ℚ) : LinSolve S :=
  fun M b => if M.mulVec cand = b then some cand else none

/-- Second half of the `np.linalg.inv` contract: the backend raises
`LinAlgError` on a singular matrix, so a call that returns at all certifies
that the matrix it was given is invertible (it computed the inverse before
the dot product). -/
def LinSolveNonsingular {S : ℕ} (inv : LinSolve S) : Prop :=
  ∀ M b x, inv M b = some x →
    ∃ N : Matrix (Fin (S + 1)) (Fin (S + 1)) ℚ, M * N = 1

/-- A concrete solving oracle satisfying both halves of the
`np.linalg.inv` contract on small systems: it returns the candidate vector
only after checking that it solves the system and that the supplied
candidate matrix is a right inverse, and fails otherwise. -/
def checkedInvLinSolve {S : ℕ} (cand : Fin (S + 1) → ℚ)
    (N : Matrix (Fin (S + 1)) (Fin (S + 1)) ℚ) : LinSolve S :=
  fun M b => if M.mulVec cand = b ∧ M * N = 1 then some cand else none

/-- `loc_mat[-1, :] = 1.0`: the conservation-row override of the direct
solve, overwriting the last row with ones. -/
def overrideLast {S : ℕ} (M : Matrix (Fin (S + 1)) (Fin (S + 1)) ℚ) :
    Matrix (Fin (S + 1)) (Fin (S + 1)) ℚ :=
  Matrix.of fun r c => if r = Fin.last S then 1 else M r c

/-- The right-hand side of the direct solve: zeros except the last entry,
which is the pre-existing total density of the cell
(`rhs = np.zeros(...); rhs[-1] = np.sum(self.dens[i, :])`). -/
def rhsVec {S : ℕ} (total : ℚ) : Fin (S + 1) → ℚ :=
  fun j => if j = Fin.last S then total else 0

/-- One iteration of the cell loop in `Impurity.solve`: override the last
row of the cell's stored matrix in place, build the conservation right-hand
side, and solve; the new densities and the mutated matrix are returned. -/
def solveCell {S : ℕ} (inv : LinSolve S)
    (M : Matrix (Fin (S + 1)) (Fin (S + 1)) ℚ) (d : Fin (S + 1) → ℚ) :
    Option ((Fin (S + 1) → ℚ) × Matrix (Fin (S + 1)) (Fin (S + 1)) ℚ) :=
  match inv (overrideLast M) (rhsVec (∑ j, d j)) with
  | some n => some (n, overrideLast M)
  | none => none

/-- The solver-facing state of the `Impurity` object: kinetic and Maxwellian
density arrays indexed `[cell, state]`, the stored per-cell rate matrices,
and the backward-Euler operators `op_mat[i] = inv(I - DELTA_T * rate_mat[i])`
computed by `build_rate_matrices`. -/
@[ext]
structure ImpState (num_x S : ℕ) where
  dens : Fin num_x → Fin (S + 1) → ℚ
  dens_max : Fin num_x → Fin (S + 1) → ℚ
  rate_mat : Fin num_x → Matrix (Fin (S + 1)) (Fin (S + 1)) ℚ
  rate_mat_max : Fin num_x → Matrix (Fin (S + 1)) (Fin (S + 1)) ℚ
  op_mat : Fin num_x → Matrix (Fin (S + 1)) (Fin (S + 1)) ℚ
  op_mat_max : Fin num_x → Matrix (Fin (S + 1)) (Fin (S + 1)) ℚ
deriving DecidableEq

/-- `Impurity.solve`: per cell, the direct constrained solve on the stored
kinetic matrix and then on the stored Maxwellian matrix; the stored matrices
are mutated in place (their conservation rows are overwritten), the density
rows are replaced by the solutions, and a singular matrix anywhere aborts
the whole call. -/
def Impurity.solve {num_x S : ℕ} (inv : LinSolve S) (st : ImpState num_x S) :
    Option (ImpState num_x S) :=
  if h : (∀ i, (solveCell inv (st.rate_mat i) (st.dens i)).isSome = true) ∧
      (∀ i, (solveCell inv (st.rate_mat_max i) (st.dens_max i)).isSome = true)
  then
    some
      { dens := fun i => ((solveCell inv (st.rate_mat i) (st.dens i)).get (h.1 i)).1,
        dens_max := fun i =>
          ((solveCell inv (st.rate_mat_max i) (st.dens_max i)).get (h.2 i)).1,
        rate_mat := fun i =>
          ((solveCell inv (st.rate_mat i) (st.dens i)).get (h.1 i)).2,
        rate_mat_max := fun i =>
          ((solveCell inv (st.rate_mat_max i) (st.dens_max i)).get (h.2 i)).2,
        op_mat := st.op_mat,
        op_mat_max := st.op_mat_max }
  else none

/-- `np.max(np.abs(...))` over a flattened list of entries.  All entries fed
to it are absolute values, so the `0` seed of the fold is neutral. -/
def maxAbsList (l : List ℚ) : ℚ :=
  l.foldl (fun a x => max a |x|) 0

/-- `np.max(np.abs(A))` for a two-dimensional array `[cell, state]`. -/
def maxAbs2 {n m : ℕ} (f : Fin n → Fin m → ℚ) : ℚ :=
  maxAbsList (((List.finRange n).map
    (fun i => (List.finRange m).map fun j => f i j)).flatten)

/-- Entrywise difference of the new and old kinetic density arrays. -/
def densDiff {num_x S : ℕ} (old new : ImpState num_x S) :
    Fin num_x → Fin (S + 1) → ℚ :=
  fun i j => new.dens i j - old.dens i j

/-- Entrywise difference of the new and old Maxwellian density arrays. -/
def densMaxDiff {num_x S : ℕ} (old new : ImpState num_x S) :
    Fin num_x → Fin (S + 1) → ℚ :=
  fun i j => new.dens_max i j - old.dens_max i j

/-- `Impurity.evolve`: one implicit-Euler step.  Per cell the new densities
are `op_mat[i].dot(dens[i])` (kinetic) and `op_mat_max[i].dot(dens_max[i])`
(Maxwellian); the function returns
`max(np.max(np.abs(tmp_dens - dens)), np.max(np.abs(tmp_dens - dens_max)))`
— note: not divided by the time step. -/
def Impurity.evolve {num_x S : ℕ} (st : ImpState num_x S) :
    ImpState num_x S × ℚ :=
  let tmp := fun i => (st.op_mat i).mulVec (st.dens i)
  let residual := maxAbs2 (fun i j => tmp i j - st.dens i j)
  let tmp2 := fun i => (st.op_mat_max i).mulVec (st.dens_max i)
  let residual_max := maxAbs2 (fun i j => tmp2 i j - st.dens_max i j)
  ({ st with dens := tmp, dens_max := tmp2 }, max residual residual_max)

/-- The matrix of the constrained system exactly as §4.4 of the design
document words it: "overwrite the last row of the rate matrix with
all-ones". -/
def specConservationMatrix {S : ℕ}
    (M : Matrix (Fin (S + 1)) (Fin (S + 1)) ℚ) :
    Matrix (Fin (S + 1)) (Fin (S + 1)) ℚ :=
  Matrix.of fun r c => if r = Fin.last S then 1 else M r c

/-- The right-hand side exactly as the design document words it: "set the
corresponding right-hand-side entry to the pre-existing total density in
that cell (all other RHS entries zero)". -/
def specRhs {S : ℕ} (total : ℚ) : Fin (S + 1) → ℚ :=
  fun j => if j = Fin.last S then total else 0

/-- Specification-side description of the direct solve: the produced
densities solve the square linear system with the all-ones conservation row
and the total-density right-hand side. -/
def SpecDirectSolve {S : ℕ} (M : Matrix (Fin (S + 1)) (Fin (S + 1)) ℚ)
    (total : ℚ) (n : Fin (S + 1) → ℚ) : Prop :=
  (specConservationMatrix M).mulVec n = specRhs total

/-- One cell's radiated-power accumulation in `Impurity.get_radrec_E_rates`:
`radrec_E_rates[i] += eps * n_norm * alpha_radrec * ne[i] * dens[i, from_loc]
/ t_norm`, with `alpha_radrec` the clamped interpolant value; the photon
energy `eps` of each transition comes from `get_radrec_E` and is opaque
here. -/
def radrecERatesCell {n : ℕ} (n_norm t_norm : ℚ) (epsOf : RadrecTrans n → ℚ)
    (Te ne : ℚ) (dens : Fin n → ℚ) (radrecs : List (RadrecTrans n)) : ℚ :=
  radrecs.foldl
    (fun acc t =>
      acc + epsOf t * n_norm * radrecAlpha t.radrec_interp Te * ne *
        dens t.from_loc / t_norm) 0

/-- The per-rank KSP backward-Euler solve inside the step loop of
`solver.evolve`: rank `r` solves `(I - dt*R) n_new = n_old` on its local
flattened density vector; `none` is a negative `ksp.getConvergedReason()`
(`ksp_failed = 1`).  PETSc is an external collaborator, so the solve is an
oracle; there are `R + 1` MPI ranks. -/
def Ksp (R : ℕ) : Type :=
  Fin (R + 1) → List ℚ → Option (List ℚ)

/-- The local density vectors after the solve attempt of one step: the KSP
result where the solve converged, the stale `n_new` contents where it
failed (the failing case is discarded by the global abort below). -/
def stepNewn {R : ℕ} (ksp : Ksp R) (nold nnew : Fin (R + 1) → List ℚ) :
    Fin (R + 1) → List ℚ :=
  fun r => (ksp r (nold r)).getD (nnew r)

/-- The reduced failure flag of one step:
`all_ksp_failed = MPI.COMM_WORLD.gather(ksp_failed); solver_failed =
sum(all_ksp_failed)`, broadcast back to every rank as `exit_flag`. -/
def stepFailed {R : ℕ} (ksp : Ksp R) (nold : Fin (R + 1) → List ℚ) : ℕ :=
  ∑ r, if (ksp r (nold r)).isNone = true then 1 else 0

/-- Entrywise difference of two local density vectors (`n_old - n_new`). -/
def listSub (a b : List ℚ) : List ℚ :=
  List.zipWith (fun x y => x - y) a b

/-- The reduced residual of one step: each rank computes
`dndt = np.max(np.abs(n_old - n_new)) / dt`, the root takes
`max(all_dndts)` and the result is broadcast back as `dndt_global`. -/
def stepDndt {R : ℕ} (ksp : Ksp R) (dt : ℚ)
    (nold nnew : Fin (R + 1) → List ℚ) : ℚ :=
  Finset.univ.sup' Finset.univ_nonempty
    (fun r => maxAbsList (listSub (nold r) (stepNewn ksp nold nnew r)) / dt)

/-- All per-entry differences `n_old - n_new` of one step, over every rank,
cell and state, concatenated. -/
def globalDiffList {R : ℕ} (ksp : Ksp R) (nold nnew : Fin (R + 1) → List ℚ) :
    List ℚ :=
  (((List.finRange (R + 1)).map
    (fun r => listSub (nold r) (stepNewn ksp nold nnew r)))).flatten

/-- The step loop of `solver.evolve` (`for i in range(num_t)`), with
`remaining` steps left and `i` the current 0-based step index.  Each step:
solve on every rank, update `n_old <- n_new`, reduce-and-broadcast the
failure flag and the residual, then branch identically on every rank —
abort with `None` if any rank's solve failed, stop early when the global
residual increased after 10% of the steps (`dndt_global > prev_residual and
i/num_t > 0.1`), stop when it fell below the threshold, otherwise iterate
with `prev_residual = dndt_global`. -/
def evolveLoop {R : ℕ} (ksp : Ksp R) (dt thresh : ℚ) (num_t : ℕ) :
    ℕ → ℕ → ℚ → (Fin (R + 1) → List ℚ) → (Fin (R + 1) → List ℚ) →
      Option (Fin (R + 1) → List ℚ)
  | 0, _, _, _, nnew => some nnew
  | remaining + 1, i, prev, nold, nnew =>
    if 0 < stepFailed ksp nold then none
    else if stepDndt ksp dt nold nnew > prev ∧ (i : ℚ) / (num_t : ℚ) > 1 / 10 then
      some (stepNewn ksp nold nnew)
    else if stepDndt ksp dt nold nnew < thresh then some (stepNewn ksp nold nnew)
    else evolveLoop ksp dt thresh num_t remaining (i + 1)
      (stepDndt ksp dt nold nnew) (stepNewn ksp nold nnew) (stepNewn ksp nold nnew)

/-- `solver.evolve`: run the step loop from the initial densities, with
`prev_residual = 1e20` and `n_new` initialised to zeros. -/
def solverEvolve {R : ℕ} (ksp : Ksp R) (dt thresh : ℚ) (num_t : ℕ)
    (n_init : Fin (R + 1) → List ℚ) : Option (Fin (R + 1) → List ℚ) :=
  evolveLoop ksp dt thresh num_t num_t 0 ((10 : ℚ) ^ 20) n_init
    (fun r => (n_init r).map fun _ => 0)

/-- A concrete one-state, one-cell impurity state (zero rate matrix, hence
trivially conservative columns, and exact identity backward-Euler
operators) used to instantiate the solver theorems. -/
def exSt : ImpState 1 0 :=
  { dens := fun _ => ![5],
    dens_max := fun _ => ![5],
    rate_mat := fun _ => 0,
    rate_mat_max := fun _ => 0,
    op_mat := fun _ => 1,
    op_mat_max := fun _ => 1 }

/-- The state produced by the direct solve on `exSt`: same densities, and
the stored matrices with their conservation row overwritten. -/
def exSt2 : ImpState 1 0 :=
  { dens := fun _ => ![5],
    dens_max := fun _ => ![5],
    rate_mat := fun _ => overrideLast 0,
    rate_mat_max := fun _ => overrideLast 0,
    op_mat := fun _ => 1,
    op_mat_max := fun _ => 1 }

/-- Candidate solution handed to the checked oracle for `exSt`. -/
def exCand : Fin 1 → ℚ := ![5]

/-- A two-state, one-cell impurity state for the residual counterexample:
its stored operators are the exact inverses of `I - dt * R` for
`dt = 2` and the conservative rate matrix `!![-1, -1; 1, 1]`. -/
def resSt : ImpState 1 1 :=
  { dens := fun _ => ![1, 0],
    dens_max := fun _ => ![0, 0],
    rate_mat := fun _ => Matrix.of ![![-1, -1], ![1, 1]],
    rate_mat_max := fun _ => Matrix.of ![![-1, -1], ![1, 1]],
    op_mat := fun _ => Matrix.of ![![-1, -2], ![2, 3]],
    op_mat_max := fun _ => Matrix.of ![![-1, -2], ![2, 3]] }

/-- A single-rank KSP oracle that always fails. -/
def failKsp : Ksp 0 := fun _ _ => none

/-- A single-rank KSP oracle that returns its input unchanged (an exact
solve of the trivial step). -/
def idKsp : Ksp 0 := fun _ n => some n

/-- A one-rank local density vector. -/
def oneVec : Fin 1 → List ℚ := fun _ => [1]

/-- A temperature interpolant that is negative everywhere, standing for a
negative interpolation artifact near a table boundary. -/
def negInterp : ℚ → ℚ := fun _ => -1

/-- A radiative-recombination transition carrying the negative
interpolant. -/
def negRadrec : RadrecTrans 1 :=
  { from_loc := 0, to_loc := 0, radrec_interp := negInterp }

/-- A one-entry state table for the transition-loading theorems. -/
def exStates : List State :=
  [{ iz := 0, statename := "1s2", loc := 0, statw := 1, energy := 0 }]

/-- Feature flags with every transition kind enabled. -/
def allCfg : Config :=
  { COLL_ION_REC := true, RAD_REC := true, COLL_EX_DEEX := true,
    SPONT_EM := true }

/-- A catalog line whose to-state is not in `exStates`: its lookup fails
and the line must be dropped silently. -/
def badLine : CatalogLine :=
  { trans_type := "ionization", from_iz := 0, from_statename := "1s2",
    to_iz := 1, to_statename := "1s1", dtype := "" }

/-- The empty accumulator of `load_transitions`. -/
def emptyLT : LoadedTransitions := { iz := [], radrec := [], ex := [] }

theorem colSum_addPair {n : ℕ} (a b : Fin n) (K : ℚ)
    (M : Matrix (Fin n) (Fin n) ℚ) (c : Fin n) :
    colSum (addPair a b K M) c = colSum M c := by
  unfold colSum addPair
  simp only [Matrix.of_apply, Finset.sum_add_distrib, ite_and,
    Finset.sum_ite_eq', Finset.mem_univ, if_true]
  by_cases hc : c = a <;> simp [hc]

theorem colSum_applyIz {n : ℕ} (M : Matrix (Fin n) (Fin n) ℚ) (t : IzTrans n)
    (c : Fin n) : colSum (applyIz M t) c = colSum M c := by
  unfold applyIz
  rw [colSum_addPair, colSum_addPair]

theorem colSum_applyRadrec {n : ℕ} (ne Te : ℚ) (M : Matrix (Fin n) (Fin n) ℚ)
    (t : RadrecTrans n) (c : Fin n) :
    colSum (applyRadrec ne Te M t) c = colSum M c := by
  unfold applyRadrec
  rw [colSum_addPair]

theorem colSum_applyEx {n : ℕ} (M : Matrix (Fin n) (Fin n) ℚ) (t : ExTrans n)
    (c : Fin n) : colSum (applyEx M t) c = colSum M c := by
  unfold applyEx
  rw [colSum_addPair, colSum_addPair]

theorem colSum_applyEm {n : ℕ} (M : Matrix (Fin n) (Fin n) ℚ) (t : EmTrans n)
    (c : Fin n) : colSum (applyEm M t) c = colSum M c := by
  unfold applyEm
  rw [colSum_addPair]

theorem colSum_foldl {n : ℕ} {α : Type}
    (step : Matrix (Fin n) (Fin n) ℚ → α → Matrix (Fin n) (Fin n) ℚ)
    (hstep : ∀ M t c, colSum (step M t) c = colSum M c) :
    ∀ (L : List α) (M : Matrix (Fin n) (Fin n) ℚ) (c : Fin n),
      colSum (L.foldl step M) c = colSum M c
  | [], _, _ => rfl
  | t :: L, M, c => by
    rw [List.foldl_cons, colSum_foldl step hstep L, hstep]

theorem colSum_stage {n : ℕ} {α : Type} (b : Bool)
    (step : Matrix (Fin n) (Fin n) ℚ → α → Matrix (Fin n) (Fin n) ℚ)
    (hstep : ∀ M t c, colSum (step M t) c = colSum M c) (L : List α)
    (M : Matrix (Fin n) (Fin n) ℚ) (c : Fin n) :
    colSum (if b then L.foldl step M else M) c = colSum M c := by
  cases b
  · rfl
  · simp only [if_true]
    rw [colSum_foldl step hstep]

theorem overrideLast_apply_last {S : ℕ}
    (M : Matrix (Fin (S + 1)) (Fin (S + 1)) ℚ) (j : Fin (S + 1)) :
    overrideLast M (Fin.last S) j = 1 := by
  simp [overrideLast]

theorem overrideLast_apply_ne {S : ℕ}
    (M : Matrix (Fin (S + 1)) (Fin (S + 1)) ℚ) {r : Fin (S + 1)}
    (j : Fin (S + 1)) (h : r ≠ Fin.last S) : overrideLast M r j = M r j := by
  simp [overrideLast, h]

theorem overrideLast_idem {S : ℕ}
    (M : Matrix (Fin (S + 1)) (Fin (S + 1)) ℚ) :
    overrideLast (overrideLast M) = overrideLast M := by
  funext r c
  by_cases h : r = Fin.last S <;> simp [overrideLast, h]

theorem colSum_overrideLast {S : ℕ}
    (M : Matrix (Fin (S + 1)) (Fin (S + 1)) ℚ) (c : Fin (S + 1)) :
    colSum (overrideLast M) c = colSum M c + 1 - M (Fin.last S) c := by
  unfold colSum overrideLast
  have hsplit : ∀ r : Fin (S + 1),
      (if r = Fin.last S then (1 : ℚ) else M r c) =
        M r c + (if r = Fin.last S then 1 - M r c else 0) := by
    intro r
    by_cases h : r = Fin.last S <;> simp [h]
  simp only [Matrix.of_apply, hsplit, Finset.sum_add_distrib,
    Finset.sum_ite_eq', Finset.mem_univ, if_true]
  ring

theorem checkedLinSolve_ok {S : ℕ} (cand : Fin (S + 1) → ℚ) :
    LinSolveOK (checkedLinSolve cand) := by
  intro M b x h
  unfold checkedLinSolve at h
  by_cases hc : M.mulVec cand = b
  · rw [if_pos hc] at h
    obtain rfl : cand = x := Option.some.inj h
    exact hc
  · rw [if_neg hc] at h
    exact Option.noConfusion h

theorem solveCell_elim {S : ℕ} {inv : LinSolve S}
    {M M' : Matrix (Fin (S + 1)) (Fin (S + 1)) ℚ} {d n : Fin (S + 1) → ℚ}
    (h : solveCell inv M d = some (n, M')) :
    inv (overrideLast M) (rhsVec (∑ j, d j)) = some n ∧
      M' = overrideLast M := by
  cases hc : inv (overrideLast M) (rhsVec (∑ j, d j)) with
  | none =>
    simp only [solveCell, hc] at h
    exact Option.noConfusion h
  | some y =>
    simp only [solveCell, hc, Option.some.injEq, Prod.mk.injEq] at h
    refine ⟨?_, h.2.symm⟩
    rw [h.1]

theorem sum_of_solveCell {S : ℕ} {inv : LinSolve S} (hinv : LinSolveOK inv)
    {M M' : Matrix (Fin (S + 1)) (Fin (S + 1)) ℚ} {d n : Fin (S + 1) → ℚ}
    (h : solveCell inv M d = some (n, M')) : (∑ j, n j) = ∑ j, d j := by
  obtain ⟨hcall, _⟩ := solveCell_elim h
  have hsol := hinv _ _ _ hcall
  have hlast := congrFun hsol (Fin.last S)
  simp only [Matrix.mulVec, Matrix.dotProduct, overrideLast, Matrix.of_apply,
    rhsVec, if_true, eq_self_iff_true, one_mul] at hlast
  exact hlast

theorem solve_elim {num_x S : ℕ} {inv : LinSolve S}
    {st st' : ImpState num_x S} (h : Impurity.solve inv st = some st') :
    (∀ i, solveCell inv (st.rate_mat i) (st.dens i) =
        some (st'.dens i, st'.rate_mat i)) ∧
    (∀ i, solveCell inv (st.rate_mat_max i) (st.dens_max i) =
        some (st'.dens_max i, st'.rate_mat_max i)) ∧
    st'.op_mat = st.op_mat ∧ st'.op_mat_max = st.op_mat_max := by
  unfold Impurity.solve at h
  split at h
  case isTrue hcond =>
    obtain rfl := Option.some.inj h
    refine ⟨fun i => ?_, fun i => ?_, rfl, rfl⟩
    · obtain ⟨v, hv⟩ := Option.isSome_iff_exists.mp (hcond.1 i)
      simp only [hv, Option.get_some]
    · obtain ⟨v, hv⟩ := Option.isSome_iff_exists.mp (hcond.2 i)
      simp only [hv, Option.get_some]
  case isFalse =>
    exact Option.noConfusion h

theorem solve_intro {num_x S : ℕ} (inv : LinSolve S) (st : ImpState num_x S)
    (f fm : Fin num_x → Fin (S + 1) → ℚ)
    (g gm : Fin num_x → Matrix (Fin (S + 1)) (Fin (S + 1)) ℚ)
    (h1 : ∀ i, solveCell inv (st.rate_mat i) (st.dens i) = some (f i, g i))
    (h2 : ∀ i, solveCell inv (st.rate_mat_max i) (st.dens_max i) =
      some (fm i, gm i)) :
    Impurity.solve inv st = some ⟨f, fm, g, gm, st.op_mat, st.op_mat_max⟩ := by
  have hcond : (∀ i, (solveCell inv (st.rate_mat i) (st.dens i)).isSome = true) ∧
      (∀ i, (solveCell inv (st.rate_mat_max i) (st.dens_max i)).isSome = true) :=
    ⟨fun i => by rw [h1 i]; rfl, fun i => by rw [h2 i]; rfl⟩
  unfold Impurity.solve
  rw [dif_pos hcond]
  refine congrArg some ?_
  ext i j <;> simp only [h1 i, h2 i, Option.get_some]

theorem sum_mulVec_of_colSum_one {n : ℕ} (B : Matrix (Fin n) (Fin n) ℚ)
    (v : Fin n → ℚ) (h : ∀ c, colSum B c = 1) :
    ∑ j, B.mulVec v j = ∑ j, v j := by
  simp only [Matrix.mulVec, Matrix.dotProduct]
  rw [Finset.sum_comm]
  refine Finset.sum_congr rfl fun k _ => ?_
  rw [← Finset.sum_mul]
  have hk := h k
  unfold colSum at hk
  rw [hk, one_mul]

theorem colSum_op_eq_one {n : ℕ} (R op : Matrix (Fin n) (Fin n) ℚ) (dt : ℚ)
    (hcol : ∀ c, colSum R c = 0)
    (hop : ((1 : Matrix (Fin n) (Fin n) ℚ) - dt • R) * op = 1) :
    ∀ c, colSum op c = 1 := by
  have hone : ∀ k : Fin n, colSum (1 : Matrix (Fin n) (Fin n) ℚ) k = 1 := by
    intro k
    unfold colSum
    simp [Matrix.one_apply, Finset.sum_ite_eq']
  have hA : ∀ k : Fin n,
      colSum ((1 : Matrix (Fin n) (Fin n) ℚ) - dt • R) k = 1 := by
    intro k
    unfold colSum
    simp only [Matrix.sub_apply, Matrix.smul_apply, smul_eq_mul,
      Finset.sum_sub_distrib, ← Finset.mul_sum]
    have h1 := hone k
    have h2 := hcol k
    unfold colSum at h1 h2
    rw [h1, h2]
    ring
  intro c
  have h2 : colSum (((1 : Matrix (Fin n) (Fin n) ℚ) - dt • R) * op) c =
      colSum op c := by
    unfold colSum
    simp only [Matrix.mul_apply]
    rw [Finset.sum_comm]
    refine Finset.sum_congr rfl fun k _ => ?_
    rw [← Finset.sum_mul]
    have := hA k
    unfold colSum at this
    rw [this, one_mul]
  rw [hop, hone c] at h2
  exact h2.symm

theorem foldl_maxAbs_seed (l : List ℚ) :
    ∀ s t : ℚ, l.foldl (fun a x => max a |x|) (max s t) =
      max s (l.foldl (fun a x => max a |x|) t) := by
  induction l with
  | nil => intro s t; rfl
  | cons x xs ih =>
    intro s t
    simp only [List.foldl_cons]
    rw [max_assoc]
    exact ih s (max t |x|)

theorem maxAbsList_nonneg (l : List ℚ) : 0 ≤ maxAbsList l := by
  cases l with
  | nil => exact le_refl 0
  | cons x xs =>
    unfold maxAbsList
    simp only [List.foldl_cons]
    rw [show (max (0 : ℚ) |x|) = max 0 |x| from rfl, foldl_maxAbs_seed]
    exact le_max_left 0 _

theorem maxAbsList_append (a b : List ℚ) :
    maxAbsList (a ++ b) = max (maxAbsList a) (maxAbsList b) := by
  have h0 : maxAbsList (a ++ b) =
      List.foldl (fun a x => max a |x|) (maxAbsList a) b := by
    unfold maxAbsList
    rw [List.foldl_append]
  rw [h0, ← max_eq_left (maxAbsList_nonneg a), foldl_maxAbs_seed,
    max_eq_left (maxAbsList_nonneg a)]
  rfl

theorem le_maxAbsList_flatten {L : List (List ℚ)} {l : List ℚ} (h : l ∈ L) :
    maxAbsList l ≤ maxAbsList L.flatten := by
  induction L with
  | nil => cases h
  | cons hd tl ih =>
    rw [List.flatten_cons, maxAbsList_append]
    rcases List.mem_cons.mp h with rfl | htl
    · exact le_max_left _ _
    · exact le_trans (ih htl) (le_max_right _ _)

theorem maxAbsList_flatten_le {L : List (List ℚ)} {B : ℚ} (hB : 0 ≤ B)
    (h : ∀ l ∈ L, maxAbsList l ≤ B) : maxAbsList L.flatten ≤ B := by
  induction L with
  | nil => exact hB
  | cons hd tl ih =>
    rw [List.flatten_cons, maxAbsList_append]
    exact max_le (h hd (List.mem_cons_self hd tl))
      (ih fun l hl => h l (List.mem_cons_of_mem hd hl))

theorem sup'_div_pos {R : ℕ} (f : Fin (R + 1) → ℚ) (dt : ℚ) (hdt : 0 < dt) :
    (Finset.univ.sup' Finset.univ_nonempty fun r => f r / dt) =
      (Finset.univ.sup' Finset.univ_nonempty f) / dt := by
  apply le_antisymm
  · apply Finset.sup'_le
    intro r _
    exact (div_le_div_iff_of_pos_right hdt).mpr
      (Finset.le_sup' f (Finset.mem_univ r))
  · obtain ⟨r, _, hr⟩ :=
      Finset.exists_mem_eq_sup' Finset.univ_nonempty f
    rw [hr]
    exact Finset.le_sup' (fun r => f r / dt) (Finset.mem_univ r)

theorem sup'_maxAbs_eq_flatten {R : ℕ} (g : Fin (R + 1) → List ℚ) :
    (Finset.univ.sup' Finset.univ_nonempty fun r => maxAbsList (g r)) =
      maxAbsList ((List.finRange (R + 1)).map g).flatten := by
  apply le_antisymm
  · apply Finset.sup'_le
    intro r _
    exact le_maxAbsList_flatten (List.mem_map_of_mem g (List.mem_finRange r))
  · apply maxAbsList_flatten_le
    · exact le_trans (maxAbsList_nonneg (g 0))
        (Finset.le_sup' (fun r => maxAbsList (g r)) (Finset.mem_univ 0))
    · intro l hl
      obtain ⟨r, _, rfl⟩ := List.mem_map.mp hl
      exact Finset.le_sup' (fun r => maxAbsList (g r)) (Finset.mem_univ r)

theorem exSt_solveCell :
    solveCell (checkedLinSolve exCand) (0 : Matrix (Fin 1) (Fin 1) ℚ) ![5] =
      some (exCand, overrideLast 0) := by
  have hchk : (overrideLast (0 : Matrix (Fin 1) (Fin 1) ℚ)).mulVec exCand =
      rhsVec (∑ j, (![5] : Fin 1 → ℚ) j) := by
    funext j
    fin_cases j
    simp [overrideLast, rhsVec, Matrix.mulVec, Matrix.dotProduct, exCand]
  unfold solveCell checkedLinSolve
  rw [if_pos hchk]

theorem exSt_solve : Impurity.solve (checkedLinSolve exCand) exSt = some exSt2 :=
  solve_intro _ _ (fun _ => exCand) (fun _ => exCand)
    (fun _ => overrideLast 0) (fun _ => overrideLast 0)
    (fun _ => exSt_solveCell) (fun _ => exSt_solveCell)

theorem stepFailed_idKsp : stepFailed idKsp oneVec = 0 := by
  simp [stepFailed, idKsp]

theorem stepDndt_idKsp : stepDndt idKsp 1 oneVec oneVec = 0 := by
  unfold stepDndt
  rw [show (fun r : Fin 1 =>
      maxAbsList (listSub (oneVec r) (stepNewn idKsp oneVec oneVec r)) / 1) =
      fun _ : Fin 1 => (0 : ℚ) from funext fun r => by
        simp [maxAbsList, listSub, oneVec, stepNewn, idKsp]]
  exact Finset.sup'_const _ 0

theorem mem_foldl_iz (cfg : Config) (states : List State) :
    ∀ (lines : List CatalogLine) (acc : LoadedTransitions) (t : Transition),
      t ∈ (lines.foldl (processLine cfg states) acc).iz →
      t ∈ acc.iz ∨ (cfg.COLL_ION_REC = true ∧ ∃ l ∈ lines,
        l.trans_type = "ionization" ∧
        get_state states l.from_iz l.from_statename = some t.from_state ∧
        get_state states l.to_iz l.to_statename = some t.to_state)
  | [], _, t, h => Or.inl h
  | l :: ls, acc, t, h => by
    rw [List.foldl_cons] at h
    rcases mem_foldl_iz cfg states ls (processLine cfg states acc l) t h with h1 | h1
    · cases hF : get_state states l.from_iz l.from_statename with
      | none =>
        simp only [processLine, hF] at h1
        exact Or.inl h1
      | some fs =>
        cases hT : get_state states l.to_iz l.to_statename with
        | none =>
          simp only [processLine, hF, hT] at h1
          exact Or.inl h1
        | some ts =>
          simp only [processLine, hF, hT] at h1
          rcases List.mem_append.mp h1 with h2 | h2
          · exact Or.inl h2
          · by_cases hc : l.trans_type = "ionization" ∧ cfg.COLL_ION_REC = true
            · rw [if_pos hc] at h2
              have ht : t = ⟨"ionization", fs, ts⟩ := List.mem_singleton.mp h2
              subst ht
              exact Or.inr ⟨hc.2, l, List.mem_cons_self l ls, hc.1, hF, hT⟩
            · rw [if_neg hc] at h2
              exact absurd h2 (List.not_mem_nil t)
    · obtain ⟨hflag, l2, hl2, hrest⟩ := h1
      exact Or.inr ⟨hflag, l2, List.mem_cons_of_mem l hl2, hrest⟩

theorem mem_foldl_radrec (cfg : Config) (states : List State) :
    ∀ (lines : List CatalogLine) (acc : LoadedTransitions) (t : Transition),
      t ∈ (lines.foldl (processLine cfg states) acc).radrec →
      t ∈ acc.radrec ∨ (cfg.RAD_REC = true ∧ ∃ l ∈ lines,
        l.trans_type = "radrec" ∧
        get_state states l.from_iz l.from_statename = some t.from_state ∧
        get_state states l.to_iz l.to_statename = some t.to_state)
  | [], _, t, h => Or.inl h
  | l :: ls, acc, t, h => by
    rw [List.foldl_cons] at h
    rcases mem_foldl_radrec cfg states ls (processLine cfg states acc l) t h with h1 | h1
    · cases hF : get_state states l.from_iz l.from_statename with
      | none =>
        simp only [processLine, hF] at h1
        exact Or.inl h1
      | some fs =>
        cases hT : get_state states l.to_iz l.to_statename with
        | none =>
          simp only [processLine, hF, hT] at h1
          exact Or.inl h1
        | some ts =>
          simp only [processLine, hF, hT] at h1
          rcases List.mem_append.mp h1 with h2 | h2
          · exact Or.inl h2
          · by_cases hc : l.trans_type = "radrec" ∧ cfg.RAD_REC = true
            · rw [if_pos hc] at h2
              have ht : t = ⟨"radrec", fs, ts⟩ := List.mem_singleton.mp h2
              subst ht
              exact Or.inr ⟨hc.2, l, List.mem_cons_self l ls, hc.1, hF, hT⟩
            · rw [if_neg hc] at h2
              exact absurd h2 (List.not_mem_nil t)
    · obtain ⟨hflag, l2, hl2, hrest⟩ := h1
      exact Or.inr ⟨hflag, l2, List.mem_cons_of_mem l hl2, hrest⟩

theorem mem_foldl_ex (cfg : Config) (states : List State) :
    ∀ (lines : List CatalogLine) (acc : LoadedTransitions) (t : Transition),
      t ∈ (lines.foldl (processLine cfg states) acc).ex →
      t ∈ acc.ex ∨ (cfg.COLL_EX_DEEX = true ∧ ∃ l ∈ lines,
        l.trans_type = "excitation" ∧
        get_state states l.from_iz l.from_statename = some t.from_state ∧
        get_state states l.to_iz l.to_statename = some t.to_state)
  | [], _, t, h => Or.inl h
  | l :: ls, acc, t, h => by
    rw [List.foldl_cons] at h
    rcases mem_foldl_ex cfg states ls (processLine cfg states acc l) t h with h1 | h1
    · cases hF : get_state states l.from_iz l.from_statename with
      | none =>
        simp only [processLine, hF] at h1
        exact Or.inl h1
      | some fs =>
        cases hT : get_state states l.to_iz l.to_statename with
        | none =>
          simp only [processLine, hF, hT] at h1
          exact Or.inl h1
        | some ts =>
          simp only [processLine, hF, hT] at h1
          rcases List.mem_append.mp h1 with h2 | h2
          · exact Or.inl h2
          · by_cases hc : l.trans_type = "excitation" ∧ cfg.COLL_EX_DEEX = true
            · rw [if_pos hc] at h2
              have ht : t = ⟨"excitation", fs, ts⟩ := List.mem_singleton.mp h2
              subst ht
              exact Or.inr ⟨hc.2, l, List.mem_cons_self l ls, hc.1, hF, hT⟩
            · rw [if_neg hc] at h2
              exact absurd h2 (List.not_mem_nil t)
    · obtain ⟨hflag, l2, hl2, hrest⟩ := h1
      exact Or.inr ⟨hflag, l2, List.mem_cons_of_mem l hl2, hrest⟩

/-- C1: particle conservation.  For every spatial cell, the total impurity
density summed over states is unchanged by a successful direct solve
(`Impurity.solve`, both kinetic and Maxwellian arrays: the total equals the
imposed pre-solve total exactly) and by a single implicit-Euler step
(`Impurity.evolve`, given that the stored operator is the exact inverse of
`I - dt*R` and that the rate-matrix columns sum to zero; the rational model
is exact, standing for "within solver tolerance"). -/
theorem c1_total_density_conserved {num_x S : ℕ} (inv : LinSolve S)
    (st st' : ImpState num_x S) (dt : ℚ) (hinv : LinSolveOK inv)
    (hsolve : Impurity.solve inv st = some st')
    (hop : ∀ i, ((1 : Matrix (Fin (S + 1)) (Fin (S + 1)) ℚ) -
      dt • st.rate_mat i) * st.op_mat i = 1)
    (hcol : ∀ i c, colSum (st.rate_mat i) c = 0)
    (hopm : ∀ i, ((1 : Matrix (Fin (S + 1)) (Fin (S + 1)) ℚ) -
      dt • st.rate_mat_max i) * st.op_mat_max i = 1)
    (hcolm : ∀ i c, colSum (st.rate_mat_max i) c = 0) (i : Fin num_x) :
    ((∑ j, st'.dens i j) = ∑ j, st.dens i j) ∧
    ((∑ j, st'.dens_max i j) = ∑ j, st.dens_max i j) ∧
    ((∑ j, (Impurity.evolve st).1.dens i j) = ∑ j, st.dens i j) ∧
    ((∑ j, (Impurity.evolve st).1.dens_max i j) = ∑ j, st.dens_max i j) := by
  obtain ⟨h1, h2, _, _⟩ := solve_elim hsolve
  refine ⟨sum_of_solveCell hinv (h1 i), sum_of_solveCell hinv (h2 i), ?_, ?_⟩
  · show (∑ j, (st.op_mat i).mulVec (st.dens i) j) = ∑ j, st.dens i j
    exact sum_mulVec_of_colSum_one _ _
      (colSum_op_eq_one (st.rate_mat i) (st.op_mat i) dt (hcol i) (hop i))
  · show (∑ j, (st.op_mat_max i).mulVec (st.dens_max i) j) = ∑ j, st.dens_max i j
    exact sum_mulVec_of_colSum_one _ _
      (colSum_op_eq_one (st.rate_mat_max i) (st.op_mat_max i) dt (hcolm i) (hopm i))

/-- Witness for C1 at the concrete one-state, one-cell run. -/
theorem c1_total_density_conserved_witness :
    ((∑ j, exSt2.dens 0 j) = ∑ j, exSt.dens 0 j) ∧
    ((∑ j, exSt2.dens_max 0 j) = ∑ j, exSt.dens_max 0 j) ∧
    ((∑ j, (Impurity.evolve exSt).1.dens 0 j) = ∑ j, exSt.dens 0 j) ∧
    ((∑ j, (Impurity.evolve exSt).1.dens_max 0 j) = ∑ j, exSt.dens_max 0 j) :=
  c1_total_density_conserved (checkedLinSolve exCand) exSt exSt2 2
    (checkedLinSolve_ok exCand) exSt_solve
    (fun i => by simp [exSt]) (fun i c => by simp [colSum, exSt])
    (fun i => by simp [exSt]) (fun i c => by simp [colSum, exSt]) 0

/-- C2: direct-solve construction.  On a successful `Impurity.solve`, every
cell's new densities (kinetic and Maxwellian) solve exactly the system the
design document describes — last row of the cell's rate matrix replaced by
all-ones, right-hand side all zero except the last entry holding the
pre-existing total density — and the stored matrices indeed carry the
all-ones last row. -/
theorem c2_direct_solve_construction {num_x S : ℕ} (inv : LinSolve S)
    (st st' : ImpState num_x S) (hinv : LinSolveOK inv)
    (hsolve : Impurity.solve inv st = some st') (i : Fin num_x) :
    SpecDirectSolve (st.rate_mat i) (∑ j, st.dens i j) (st'.dens i) ∧
    SpecDirectSolve (st.rate_mat_max i) (∑ j, st.dens_max i j) (st'.dens_max i) ∧
    (∀ j, st'.rate_mat i (Fin.last S) j = 1) ∧
    (∀ j, st'.rate_mat_max i (Fin.last S) j = 1) := by
  obtain ⟨h1, h2, _, _⟩ := solve_elim hsolve
  obtain ⟨hcall1, hM1⟩ := solveCell_elim (h1 i)
  obtain ⟨hcall2, hM2⟩ := solveCell_elim (h2 i)
  refine ⟨hinv _ _ _ hcall1, hinv _ _ _ hcall2, fun j => ?_, fun j => ?_⟩
  · rw [hM1]
    exact overrideLast_apply_last _ j
  · rw [hM2]
    exact overrideLast_apply_last _ j

/-- Witness for C2 at the concrete one-state, one-cell run. -/
theorem c2_direct_solve_construction_witness :
    SpecDirectSolve (exSt.rate_mat 0) (∑ j, exSt.dens 0 j) (exSt2.dens 0) ∧
    exSt2.rate_mat 0 (Fin.last 0) 0 = 1 :=
  ⟨(c2_direct_solve_construction (checkedLinSolve exCand) exSt exSt2
      (checkedLinSolve_ok exCand) exSt_solve 0).1,
   (c2_direct_solve_construction (checkedLinSolve exCand) exSt exSt2
      (checkedLinSolve_ok exCand) exSt_solve 0).2.2.1 0⟩

/-- C3: column-sum-zero invariant.  Every column of every per-cell rate
matrix produced by the builder sums to zero: each enabled transition only
ever adds a loss term on the diagonal and an equal-magnitude gain term
off-diagonal in the same column, before the solver's conservation-row
override.  The kinetic and Maxwellian matrices are both instances of this
statement (the evaluated coefficients are arbitrary here). -/
theorem c3_column_sums_zero {num_x n : ℕ} (cfg : Config)
    (ne Te : Fin num_x → ℚ) (izs : Fin num_x → List (IzTrans n))
    (radrecs : Fin num_x → List (RadrecTrans n))
    (exs : Fin num_x → List (ExTrans n)) (ems : Fin num_x → List (EmTrans n))
    (i : Fin num_x) (c : Fin n) :
    colSum (build_rate_matrices cfg ne Te izs radrecs exs ems i) c = 0 := by
  show colSum (buildCellMat cfg (ne i) (Te i) (izs i) (radrecs i) (exs i) (ems i)) c = 0
  unfold buildCellMat
  rw [colSum_stage _ _ (fun M t c => colSum_applyEm M t c),
    colSum_stage _ _ (fun M t c => colSum_applyEx M t c),
    colSum_stage _ _ (fun M t c => colSum_applyRadrec (ne i) (Te i) M t c),
    colSum_stage _ _ (fun M t c => colSum_applyIz M t c)]
  simp [colSum]

/-- C4: idempotence of the direct solve.  A successful `Impurity.solve` is a
fixed point: solving again from the produced state returns exactly the same
state (and in particular identical densities), because the conservation-row
override is idempotent, the per-cell totals are preserved, and the solver is
a pure function of the matrix and the totals. -/
theorem c4_direct_solve_idempotent {num_x S : ℕ} (inv : LinSolve S)
    (st st' : ImpState num_x S) (hinv : LinSolveOK inv)
    (hsolve : Impurity.solve inv st = some st') :
    Impurity.solve inv st' = some st' := by
  obtain ⟨h1, h2, hop, hopm⟩ := solve_elim hsolve
  have h1' : ∀ i, solveCell inv (st'.rate_mat i) (st'.dens i) =
      some (st'.dens i, st'.rate_mat i) := by
    intro i
    obtain ⟨hcall, hM⟩ := solveCell_elim (h1 i)
    have hsum : (∑ j, st'.dens i j) = ∑ j, st.dens i j :=
      sum_of_solveCell hinv (h1 i)
    unfold solveCell
    rw [hM, overrideLast_idem, hsum, hcall]
  have h2' : ∀ i, solveCell inv (st'.rate_mat_max i) (st'.dens_max i) =
      some (st'.dens_max i, st'.rate_mat_max i) := by
    intro i
    obtain ⟨hcall, hM⟩ := solveCell_elim (h2 i)
    have hsum : (∑ j, st'.dens_max i j) = ∑ j, st.dens_max i j :=
      sum_of_solveCell hinv (h2 i)
    unfold solveCell
    rw [hM, overrideLast_idem, hsum, hcall]
  exact solve_intro inv st' (fun i => st'.dens i) (fun i => st'.dens_max i)
    (fun i => st'.rate_mat i) (fun i => st'.rate_mat_max i) h1' h2'

/-- Witness for C4 at the concrete one-state, one-cell run. -/
theorem c4_direct_solve_idempotent_witness :
    Impurity.solve (checkedLinSolve exCand) exSt2 = some exSt2 :=
  c4_direct_solve_idempotent (checkedLinSolve exCand) exSt exSt2
    (checkedLinSolve_ok exCand) exSt_solve

/-- C5 counterexample: the claim "the reported residual equals
`max |n_new - n_old| / dt`" fails for `Impurity.evolve`.  On a concrete
two-state, one-cell state whose stored operators are the exact inverses of
`I - dt*R` for `dt = 2` (and whose rate-matrix columns sum to zero), the
value returned by `Impurity.evolve` is the undivided `max |n_new - n_old|`
(here `2`), not `max |n_new - n_old| / dt` (here `1`). -/
theorem c5_residual_counterexample :
    (((1 : Matrix (Fin 2) (Fin 2) ℚ) - (2 : ℚ) • resSt.rate_mat 0) *
      resSt.op_mat 0 = 1) ∧
    (((1 : Matrix (Fin 2) (Fin 2) ℚ) - (2 : ℚ) • resSt.rate_mat_max 0) *
      resSt.op_mat_max 0 = 1) ∧
    colSum (resSt.rate_mat 0) 0 = 0 ∧ colSum (resSt.rate_mat 0) 1 = 0 ∧
    (Impurity.evolve resSt).2 ≠
      max (maxAbs2 (densDiff resSt (Impurity.evolve resSt).1))
        (maxAbs2 (densMaxDiff resSt (Impurity.evolve resSt).1)) / 2 := by
  have hwf : ((1 : Matrix (Fin 2) (Fin 2) ℚ) - (2 : ℚ) • resSt.rate_mat 0) *
      resSt.op_mat 0 = 1 := by
    funext r c
    fin_cases r <;> fin_cases c <;>
      simp [Matrix.mul_apply, Matrix.sub_apply, Matrix.smul_apply,
        Matrix.one_apply, Fin.sum_univ_two, resSt] <;> norm_num
  have hlhs : (Impurity.evolve resSt).2 = 2 := by
    show max
        (maxAbs2 fun i j => (resSt.op_mat i).mulVec (resSt.dens i) j - resSt.dens i j)
        (maxAbs2 fun i j =>
          (resSt.op_mat_max i).mulVec (resSt.dens_max i) j - resSt.dens_max i j) = 2
    rw [show (maxAbs2 fun i j =>
        (resSt.op_mat i).mulVec (resSt.dens i) j - resSt.dens i j) =
        max (max 0 |(resSt.op_mat 0).mulVec (resSt.dens 0) 0 - resSt.dens 0 0|)
          |(resSt.op_mat 0).mulVec (resSt.dens 0) 1 - resSt.dens 0 1| from rfl]
    rw [show (maxAbs2 fun i j =>
        (resSt.op_mat_max i).mulVec (resSt.dens_max i) j - resSt.dens_max i j) =
        max (max 0 |(resSt.op_mat_max 0).mulVec (resSt.dens_max 0) 0 - resSt.dens_max 0 0|)
          |(resSt.op_mat_max 0).mulVec (resSt.dens_max 0) 1 - resSt.dens_max 0 1| from rfl]
    simp [Matrix.mulVec, Matrix.dotProduct, Fin.sum_univ_two, resSt]
    norm_num
  have hrhs : max (maxAbs2 (densDiff resSt (Impurity.evolve resSt).1))
      (maxAbs2 (densMaxDiff resSt (Impurity.evolve resSt).1)) = 2 := by
    rw [show (maxAbs2 (densDiff resSt (Impurity.evolve resSt).1)) =
        max (max 0 |densDiff resSt (Impurity.evolve resSt).1 0 0|)
          |densDiff resSt (Impurity.evolve resSt).1 0 1| from rfl]
    rw [show (maxAbs2 (densMaxDiff resSt (Impurity.evolve resSt).1)) =
        max (max 0 |densMaxDiff resSt (Impurity.evolve resSt).1 0 0|)
          |densMaxDiff resSt (Impurity.evolve resSt).1 0 1| from rfl]
    simp [densDiff, densMaxDiff, Impurity.evolve, Matrix.mulVec,
      Matrix.dotProduct, Fin.sum_univ_two, resSt]
    norm_num
  refine ⟨hwf, hwf, by simp [colSum, resSt, Fin.sum_univ_two],
    by simp [colSum, resSt, Fin.sum_univ_two], ?_⟩
  rw [hlhs, hrhs]
  norm_num

/-- C5 amended: the residual reported by `solver.evolve` at each step —
the per-rank `np.max(np.abs(n_old - n_new)) / dt` reduced with `max` over
all ranks and broadcast back — equals the maximum over all cells and states
of `|n_new - n_old|`, divided by the time step; the residual returned by
`Impurity.evolve`, however, is the plain maximum of `|n_new - n_old|` over
cells, states and both electron representations, not divided by the time
step. -/
theorem c5_residual_amended {R num_x S : ℕ} (ksp : Ksp R) (dt : ℚ)
    (nold nnew : Fin (R + 1) → List ℚ) (st : ImpState num_x S)
    (hdt : 0 < dt) :
    stepDndt ksp dt nold nnew = maxAbsList (globalDiffList ksp nold nnew) / dt ∧
    (Impurity.evolve st).2 =
      max (maxAbs2 (densDiff st (Impurity.evolve st).1))
        (maxAbs2 (densMaxDiff st (Impurity.evolve st).1)) := by
  constructor
  · unfold stepDndt globalDiffList
    rw [sup'_div_pos _ dt hdt, sup'_maxAbs_eq_flatten]
  · rfl

/-- Witness for C5's amended statement at a concrete rank and state. -/
theorem c5_residual_amended_witness :
    stepDndt idKsp 1 oneVec oneVec =
      maxAbsList (globalDiffList idKsp oneVec oneVec) / 1 ∧
    (Impurity.evolve exSt).2 =
      max (maxAbs2 (densDiff exSt (Impurity.evolve exSt).1))
        (maxAbs2 (densMaxDiff exSt (Impurity.evolve exSt).1)) :=
  c5_residual_amended idKsp 1 oneVec oneVec exSt one_pos

/-- C6: divergence early-stop.  Inside the step loop of `solver.evolve`,
when no rank's solve failed, the global residual exceeds the previous
step's residual, and more than 10% of the maximum step count has elapsed
(`i/num_t > 0.1`), the loop terminates right there and returns the
densities held after this step as a valid non-`None` result — no error is
signalled. -/
theorem c6_divergence_graceful_stop {R : ℕ} (ksp : Ksp R) (dt thresh : ℚ)
    (num_t rem i : ℕ) (prev : ℚ) (nold nnew : Fin (R + 1) → List ℚ)
    (hok : stepFailed ksp nold = 0)
    (hdiv : stepDndt ksp dt nold nnew > prev)
    (hwin : (i : ℚ) / (num_t : ℚ) > 1 / 10) :
    evolveLoop ksp dt thresh num_t (rem + 1) i prev nold nnew =
      some (stepNewn ksp nold nnew) := by
  unfold evolveLoop
  rw [if_neg (by rw [hok]; exact Nat.lt_irrefl 0), if_pos ⟨hdiv, hwin⟩]

/-- Witness for C6: a diverging step (previous residual `-1`, current `0`)
past the settling window stops gracefully with the current densities. -/
theorem c6_divergence_graceful_stop_witness :
    evolveLoop idKsp 1 1 2 1 1 (-1) oneVec oneVec =
      some (stepNewn idKsp oneVec oneVec) :=
  c6_divergence_graceful_stop idKsp 1 1 2 0 1 (-1) oneVec oneVec
    stepFailed_idKsp (by rw [stepDndt_idKsp]; norm_num) (by norm_num)

/-- C7: global abort on solver failure.  Inside the step loop of
`solver.evolve`, if the KSP solve fails on any rank at an executed step,
the whole evolution returns `None` (the per-rank failure flags are summed
— the reduce — and the sum is the single broadcast `exit_flag` on which
every rank branches identically), rather than continuing with stale
densities. -/
theorem c7_global_abort_on_failure {R : ℕ} (ksp : Ksp R) (dt thresh : ℚ)
    (num_t rem i : ℕ) (prev : ℚ) (nold nnew : Fin (R + 1) → List ℚ)
    (r0 : Fin (R + 1)) (hfail : (ksp r0 (nold r0)).isNone = true) :
    evolveLoop ksp dt thresh num_t (rem + 1) i prev nold nnew = none := by
  have hpos : 0 < stepFailed ksp nold := by
    rcases Nat.eq_zero_or_pos (stepFailed ksp nold) with h0 | hp
    · exfalso
      unfold stepFailed at h0
      rw [Finset.sum_eq_zero_iff] at h0
      have hz := h0 r0 (Finset.mem_univ r0)
      rw [if_pos hfail] at hz
      exact one_ne_zero hz
    · exact hp
  unfold evolveLoop
  rw [if_pos hpos]

/-- Witness for C7: a failing single-rank oracle aborts the loop with
`None`. -/
theorem c7_global_abort_on_failure_witness :
    evolveLoop failKsp 1 1 5 1 0 0 oneVec oneVec = none :=
  c7_global_abort_on_failure failKsp 1 1 5 0 0 0 oneVec oneVec 0 rfl

/-- C8: non-negative radiative-recombination rates.  The coefficient used
wherever the temperature interpolant is evaluated — the builder's
`applyRadrec` block and the radiated-power diagnostic both go through
`radrecAlpha` — is the clamp `max(interp(Te), 0)`: it is never negative, a
negative interpolation artifact is replaced by `0` (not treated as an
error), and a non-negative value passes through unchanged. -/
theorem c8_radrec_clamped_nonneg {n : ℕ} (t : RadrecTrans n) (Te ne : ℚ)
    (M : Matrix (Fin n) (Fin n) ℚ) :
    0 ≤ radrecAlpha t.radrec_interp Te ∧
    (t.radrec_interp Te < 0 → radrecAlpha t.radrec_interp Te = 0) ∧
    (0 ≤ t.radrec_interp Te →
      radrecAlpha t.radrec_interp Te = t.radrec_interp Te) ∧
    applyRadrec ne Te M t =
      addPair t.from_loc t.to_loc (ne * radrecAlpha t.radrec_interp Te) M := by
  refine ⟨le_max_right _ _, fun h => max_eq_right (le_of_lt h),
    fun h => max_eq_left h, rfl⟩

/-- Witness for C8: a negative interpolant value is clamped to zero. -/
theorem c8_radrec_clamped_nonneg_witness :
    radrecAlpha negRadrec.radrec_interp 5 = 0 :=
  (c8_radrec_clamped_nonneg negRadrec 5 1 0).2.1
    (by norm_num [negRadrec, negInterp])

/-- C9: silent drop of unresolvable transitions.  A catalog line one of
whose state lookups fails leaves the accumulated transition lists exactly
unchanged (no error — loading is total and continues with the remaining
lines); every retained transition of each kind comes from a line whose two
lookups both succeeded and whose kind's feature flag is enabled; and a
successful lookup really returns an entry of the state table matching the
requested stage and name. -/
theorem c9_unresolvable_silently_dropped (cfg : Config) (states : List State) :
    (∀ (acc : LoadedTransitions) (l : CatalogLine),
      (get_state states l.from_iz l.from_statename = none ∨
        get_state states l.to_iz l.to_statename = none) →
      processLine cfg states acc l = acc) ∧
    (∀ (lines : List CatalogLine) (t : Transition),
      (t ∈ (load_transitions cfg states lines).iz →
        cfg.COLL_ION_REC = true ∧ ∃ l ∈ lines, l.trans_type = "ionization" ∧
          get_state states l.from_iz l.from_statename = some t.from_state ∧
          get_state states l.to_iz l.to_statename = some t.to_state) ∧
      (t ∈ (load_transitions cfg states lines).radrec →
        cfg.RAD_REC = true ∧ ∃ l ∈ lines, l.trans_type = "radrec" ∧
          get_state states l.from_iz l.from_statename = some t.from_state ∧
          get_state states l.to_iz l.to_statename = some t.to_state) ∧
      (t ∈ (load_transitions cfg states lines).ex →
        cfg.COLL_EX_DEEX = true ∧ ∃ l ∈ lines, l.trans_type = "excitation" ∧
          get_state states l.from_iz l.from_statename = some t.from_state ∧
          get_state states l.to_iz l.to_statename = some t.to_state)) ∧
    (∀ (s : State) (iz : ℤ) (nm : String), get_state states iz nm = some s →
      s ∈ states ∧ s.iz = iz ∧ s.statename = nm) := by
  refine ⟨?_, ?_, ?_⟩
  · intro acc l h
    rcases h with h | h
    · simp [processLine, h]
    · cases hX : get_state states l.from_iz l.from_statename with
      | none => simp [processLine, hX]
      | some fs => simp [processLine, hX, h]
  · intro lines t
    refine ⟨fun h => ?_, fun h => ?_, fun h => ?_⟩
    · rcases mem_foldl_iz cfg states lines ⟨[], [], []⟩ t h with h1 | h1
      · exact absurd h1 (List.not_mem_nil t)
      · exact h1
    · rcases mem_foldl_radrec cfg states lines ⟨[], [], []⟩ t h with h1 | h1
      · exact absurd h1 (List.not_mem_nil t)
      · exact h1
    · rcases mem_foldl_ex cfg states lines ⟨[], [], []⟩ t h with h1 | h1
      · exact absurd h1 (List.not_mem_nil t)
      · exact h1
  · intro s iz nm h
    unfold get_state at h
    have hmem := List.mem_of_find?_eq_some h
    have hp := List.find?_some h
    simp only [Bool.and_eq_true, beq_iff_eq] at hp
    exact ⟨hmem, hp.1, hp.2⟩

/-- Witness for C9: a line whose to-state lookup fails is dropped without
an error while loading continues. -/
theorem c9_unresolvable_silently_dropped_witness :
    processLine allCfg exStates emptyLT badLine = emptyLT :=
  (c9_unresolvable_silently_dropped allCfg exStates).1 emptyLT badLine
    (Or.inr rfl)

/-- Two contract lemmas and a right-inverse consequence for the
invertibility-checking oracle: any vector it returns solves the system, and
its succeeding certifies a right inverse of the matrix it was given. -/
theorem checkedInvLinSolve_ok {S : ℕ} (cand : Fin (S + 1) → ℚ)
    (N : Matrix (Fin (S + 1)) (Fin (S + 1)) ℚ) :
    LinSolveOK (checkedInvLinSolve cand N) := by
  intro M b x h
  unfold checkedInvLinSolve at h
  by_cases hc : M.mulVec cand = b ∧ M * N = 1
  · rw [if_pos hc] at h
    obtain rfl : cand = x := Option.some.inj h
    exact hc.1
  · rw [if_neg hc] at h
    exact Option.noConfusion h

theorem checkedInvLinSolve_nonsingular {S : ℕ} (cand : Fin (S + 1) → ℚ)
    (N : Matrix (Fin (S + 1)) (Fin (S + 1)) ℚ) :
    LinSolveNonsingular (checkedInvLinSolve cand N) := by
  intro M b x h
  unfold checkedInvLinSolve at h
  by_cases hc : M.mulVec cand = b ∧ M * N = 1
  · exact ⟨N, hc.2⟩
  · rw [if_neg hc] at h
    exact Option.noConfusion h

theorem colSum_ne_zero_of_right_inverse {S : ℕ}
    (M N : Matrix (Fin (S + 1)) (Fin (S + 1)) ℚ) (h : M * N = 1) :
    ¬ (∀ c, colSum M c = 0) := by
  intro hall
  have h1 : colSum (M * N) 0 = 0 := by
    unfold colSum
    simp only [Matrix.mul_apply]
    rw [Finset.sum_comm]
    refine Finset.sum_eq_zero fun k _ => ?_
    rw [← Finset.sum_mul]
    have hk := hall k
    unfold colSum at hk
    rw [hk, zero_mul]
  rw [h] at h1
  have h2 : colSum (1 : Matrix (Fin (S + 1)) (Fin (S + 1)) ℚ) 0 = 1 := by
    unfold colSum
    simp [Matrix.one_apply, Finset.sum_ite_eq']
  rw [h2] at h1
  exact one_ne_zero h1

theorem exSt_solveCellInv :
    solveCell (checkedInvLinSolve exCand 1) (0 : Matrix (Fin 1) (Fin 1) ℚ) ![5] =
      some (exCand, overrideLast 0) := by
  have hchk : (overrideLast (0 : Matrix (Fin 1) (Fin 1) ℚ)).mulVec exCand =
      rhsVec (∑ j, (![5] : Fin 1 → ℚ) j) := by
    funext j
    fin_cases j
    simp [overrideLast, rhsVec, Matrix.mulVec, Matrix.dotProduct, exCand]
  have hid : (overrideLast (0 : Matrix (Fin 1) (Fin 1) ℚ)) * 1 = 1 := by
    rw [mul_one]
    funext r c
    fin_cases r
    fin_cases c
    simp [overrideLast, Matrix.one_apply]
  unfold solveCell checkedInvLinSolve
  rw [if_pos ⟨hchk, hid⟩]

theorem exSt_solveInv :
    Impurity.solve (checkedInvLinSolve exCand 1) exSt = some exSt2 :=
  solve_intro _ _ (fun _ => exCand) (fun _ => exCand)
    (fun _ => overrideLast 0) (fun _ => overrideLast 0)
    (fun _ => exSt_solveCellInv) (fun _ => exSt_solveCellInv)

/-- C10: the direct solve mutates the stored per-cell matrices in place.
After a successful `Impurity.solve` (success certifies, per the
`np.linalg.inv` contract, that every overridden per-cell matrix was
invertible), the last row of every stored kinetic and Maxwellian rate
matrix has been overwritten with all ones — the builder matrix is not
copied first, the stored field itself now holds the overridden matrix —
all other rows are unchanged, each column sum has changed from `s` to
`s + 1 - (previous last-row entry)`, and the column-sum-zero property the
builder matrices satisfied no longer holds: were all the stored columns
still summing to zero, the all-ones row vector would annihilate the stored
matrix from the left, contradicting the invertibility that the successful
solve certifies. -/
theorem c10_solve_mutates_stored_matrices {num_x S : ℕ} (inv : LinSolve S)
    (st st' : ImpState num_x S) (hns : LinSolveNonsingular inv)
    (hsolve : Impurity.solve inv st = some st')
    (_hcol : ∀ i c, colSum (st.rate_mat i) c = 0)
    (_hcolm : ∀ i c, colSum (st.rate_mat_max i) c = 0) (i : Fin num_x) :
    (∀ j, st'.rate_mat i (Fin.last S) j = 1) ∧
    (∀ j, st'.rate_mat_max i (Fin.last S) j = 1) ∧
    (∀ r j, r ≠ Fin.last S → st'.rate_mat i r j = st.rate_mat i r j) ∧
    (∀ r j, r ≠ Fin.last S → st'.rate_mat_max i r j = st.rate_mat_max i r j) ∧
    (∀ c, colSum (st'.rate_mat i) c =
      colSum (st.rate_mat i) c + 1 - st.rate_mat i (Fin.last S) c) ∧
    (∀ c, colSum (st'.rate_mat_max i) c =
      colSum (st.rate_mat_max i) c + 1 - st.rate_mat_max i (Fin.last S) c) ∧
    ¬ (∀ c, colSum (st'.rate_mat i) c = 0) ∧
    ¬ (∀ c, colSum (st'.rate_mat_max i) c = 0) := by
  obtain ⟨h1, h2, _, _⟩ := solve_elim hsolve
  obtain ⟨hcall1, hM1⟩ := solveCell_elim (h1 i)
  obtain ⟨hcall2, hM2⟩ := solveCell_elim (h2 i)
  obtain ⟨N1, hN1⟩ := hns _ _ _ hcall1
  obtain ⟨N2, hN2⟩ := hns _ _ _ hcall2
  refine ⟨fun j => ?_, fun j => ?_, fun r j hr => ?_, fun r j hr => ?_,
    fun c => ?_, fun c => ?_, ?_, ?_⟩
  · rw [hM1]
    exact overrideLast_apply_last _ j
  · rw [hM2]
    exact overrideLast_apply_last _ j
  · rw [hM1]
    exact overrideLast_apply_ne _ j hr
  · rw [hM2]
    exact overrideLast_apply_ne _ j hr
  · rw [hM1]
    exact colSum_overrideLast _ c
  · rw [hM2]
    exact colSum_overrideLast _ c
  · rw [hM1]
    exact colSum_ne_zero_of_right_inverse _ N1 hN1
  · rw [hM2]
    exact colSum_ne_zero_of_right_inverse _ N2 hN2

/-- Witness for C10 at the concrete one-state, one-cell run: the stored
matrix's conservation row is all ones and its columns no longer all sum to
zero. -/
theorem c10_solve_mutates_stored_matrices_witness :
    exSt2.rate_mat 0 (Fin.last 0) 0 = 1 ∧
    ¬ (∀ c, colSum (exSt2.rate_mat 0) c = 0) :=
  ⟨(c10_solve_mutates_stored_matrices (checkedInvLinSolve exCand 1) exSt exSt2
      (checkedInvLinSolve_nonsingular exCand 1) exSt_solveInv
      (fun i c => by simp [colSum, exSt])
      (fun i c => by simp [colSum, exSt]) 0).1 0,
   (c10_solve_mutates_stored_matrices (checkedInvLinSolve exCand 1) exSt exSt2
      (checkedInvLinSolve_nonsingular exCand 1) exSt_solveInv
      (fun i c => by simp [colSum, exSt])
      (fun i c => by simp [colSum, exSt]) 0).2.2.2.2.2.2.1⟩

end ImpZeff
